import Mathlib

/-!
Verification of the compile-time loop unroller (`loop_unroller.h`).

The C++ header realizes bounded iteration at compile time: a `LoopParams`
template bundles the current index, end index, change value, a comparison
functor, a modification functor, and the start index; `ForLoop` recursively
invokes a user callback once per valid index, advancing the state via the
modifier; `NestedForLoop_2` runs a two-level enumeration.

Shallow embedding choices:
* template integer parameters become `Int` fields of a structure;
* the comparison / modification functors become function-valued fields;
* the recursive template instantiation is modelled with an explicit fuel
  parameter: `none` models unbounded recursive instantiation (which in the
  source is a compile failure) and, for `NestedForLoop_2`, the absence of a
  viable overload;
* the user callback with forwarded extra arguments is modelled as a state
  transformer `Int → σ → σ` (the state `σ` stands for the callback's
  observable effects together with the forwarded arguments);
* `ForLoopTrace` records the exact sequence of indices the callback is
  invoked with, in visitation order.
-/

/-- The comparison functor `std::less<int>`, called as `Comparator()(a, b)`. -/
def less : Int → Int → Bool := fun a b => decide (a < b)

/-- The comparison functor `std::less_equal<int>`. -/
def less_equal : Int → Int → Bool := fun a b => decide (a ≤ b)

/-- The comparison functor `std::greater<int>`. -/
def greater : Int → Int → Bool := fun a b => decide (b < a)

/-- The comparison functor `std::greater_equal<int>`. -/
def greater_equal : Int → Int → Bool := fun a b => decide (b ≤ a)

/-- The comparison functor `std::equal_to<int>`. -/
def equal_to : Int → Int → Bool := fun a b => decide (a = b)

/-- The modification functor `std::plus<int>`, called as `Modifier()(a, b)`. -/
def plus : Int → Int → Int := fun a b => a + b

/-- The modification functor `std::multiplies<int>`. -/
def multiplies : Int → Int → Int := fun a b => a * b

/-- `LoopParams<CurrIdx, EndIdx, ChangeVal, Comparator, Modifier, StartIdx>`:
the immutable iteration-state descriptor of the loop unroller. -/
@[ext]
structure LoopParams where
  CurrIdx : Int
  EndIdx : Int
  ChangeVal : Int
  Comparator : Int → Int → Bool
  Modifier : Int → Int → Int
  StartIdx : Int

/-- `LoopParams::GetNext`: the same descriptor with `CurrIdx` replaced by
`Modifier()(CurrIdx, ChangeVal)`. -/
def LoopParams.GetNext (lp : LoopParams) : LoopParams :=
  { lp with CurrIdx := lp.Modifier lp.CurrIdx lp.ChangeVal }

/-- `LoopParams::Reset`: the same descriptor with `CurrIdx` set back to
`StartIdx`. -/
def LoopParams.Reset (lp : LoopParams) : LoopParams :=
  { lp with CurrIdx := lp.StartIdx }

/-- `LoopParams::IsValid`: `Comparator()(CurrIdx, EndIdx)`. -/
def LoopParams.IsValid (lp : LoopParams) : Bool :=
  lp.Comparator lp.CurrIdx lp.EndIdx

/-- `GetNext` iterated `n` times. -/
def GetNextN : Nat → LoopParams → LoopParams
  | 0, lp => lp
  | n + 1, lp => GetNextN n lp.GetNext

/-- `ForLoop(LP, func, args...)` (generic API, `loop_unroller.h` lines
164-172).  The callback together with its forwarded extra arguments is
modelled as a state transformer `f : Int → σ → σ`; the fuel bounds the
depth of recursive instantiation, `none` modelling the unbounded recursion
the source turns into a compile failure.  When the predicate fails the
call returns the state unchanged without invoking the callback, at any
fuel, mirroring the `enable_if_t<!LP::IsValid()>` overload. -/
def ForLoop {σ : Type} : Nat → LoopParams → (Int → σ → σ) → σ → Option σ
  | 0, lp, _, s => if lp.IsValid then none else some s
  | fuel + 1, lp, f, s =>
    if lp.IsValid then ForLoop fuel lp.GetNext f (f lp.CurrIdx s) else some s

/-- The sequence of indices `ForLoop` invokes the callback with, in
visitation order. -/
def ForLoopTrace : Nat → LoopParams → Option (List Int)
  | 0, lp => if lp.IsValid then none else some []
  | fuel + 1, lp =>
    if lp.IsValid then
      Option.map (fun t => lp.CurrIdx :: t) (ForLoopTrace fuel lp.GetNext)
    else some []

/-- `NestedForLoop_2(LP_out, LP_in, func, args...)` (lines 294-304).  The
recursive overload requires `LP_out::IsValid() && LP_in::IsValid()` and the
base overload `!LP_out::IsValid()`; when the outer state is valid but the
inner one is not, no overload is viable and the call is ill-formed, which
the embedding models as `none` at every fuel.  A valid step runs a full
inner `ForLoop` (the callback receiving the inner index first and the
current outer index second) and recurses on the advanced outer state and
the reset inner state. -/
def NestedForLoop_2 {σ : Type} :
    Nat → LoopParams → LoopParams → (Int → Int → σ → σ) → σ → Option σ
  | 0, p, _, _, s => if p.IsValid then none else some s
  | fuel + 1, p, q, f, s =>
    if p.IsValid then
      if q.IsValid then
        Option.bind (ForLoop fuel q (fun i acc => f i p.CurrIdx acc) s)
          (fun s1 => NestedForLoop_2 fuel p.GetNext q.Reset f s1)
      else none
    else some s

/-- The sequence of (inner index, outer index) pairs `NestedForLoop_2`
invokes the callback with, in visitation order. -/
def NestedForLoopTrace : Nat → LoopParams → LoopParams → Option (List (Int × Int))
  | 0, p, _ => if p.IsValid then none else some []
  | fuel + 1, p, q =>
    if p.IsValid then
      if q.IsValid then
        Option.bind (ForLoopTrace fuel q) (fun ts =>
          Option.map (fun rest => List.map (fun i => (i, p.CurrIdx)) ts ++ rest)
            (NestedForLoopTrace fuel p.GetNext q.Reset))
      else none
    else some []

/-- The `LoopParams` built by `ForLoopLessThan<StartIdx, EndIdx, ChangeVal>`
(lines 211-217): comparator `less<int>`, modifier `plus<int>`, change value
defaulting to 1. -/
def ForLoopLessThanParams (s e : Int) (c : optParam Int 1) : LoopParams :=
  ⟨s, e, c, less, plus, s⟩

/-- The `LoopParams` built by `ForLoopLessThanEqualTo` (lines 220-226). -/
def ForLoopLessThanEqualToParams (s e : Int) (c : optParam Int 1) : LoopParams :=
  ⟨s, e, c, less_equal, plus, s⟩

/-- The `LoopParams` built by `ForLoopGreaterThan` (lines 229-235): change
value defaulting to -1. -/
def ForLoopGreaterThanParams (s e : Int) (c : optParam Int (-1)) : LoopParams :=
  ⟨s, e, c, greater, plus, s⟩

/-- The `LoopParams` built by `ForLoopGreaterThanEqualTo` (lines 238-244). -/
def ForLoopGreaterThanEqualToParams (s e : Int) (c : optParam Int (-1)) : LoopParams :=
  ⟨s, e, c, greater_equal, plus, s⟩

/-- The `LoopParams` built by `ForLoopEqualTo` (lines 247-253). -/
def ForLoopEqualToParams (s e : Int) (c : optParam Int 1) : LoopParams :=
  ⟨s, e, c, equal_to, plus, s⟩

/-- `ForLoopLessThan<StartIdx, EndIdx, ChangeVal>(func, args...)`: delegates
to `ForLoop` on the corresponding `LoopParams`. -/
def ForLoopLessThan {σ : Type} (fuel : Nat) (s e : Int) (c : Int)
    (func : Int → σ → σ) (args : σ) : Option σ :=
  ForLoop fuel (ForLoopLessThanParams s e c) func args

/-- `ForLoopLessThanEqualTo` delegating to `ForLoop`. -/
def ForLoopLessThanEqualTo {σ : Type} (fuel : Nat) (s e : Int) (c : Int)
    (func : Int → σ → σ) (args : σ) : Option σ :=
  ForLoop fuel (ForLoopLessThanEqualToParams s e c) func args

/-- `ForLoopGreaterThan` delegating to `ForLoop`. -/
def ForLoopGreaterThan {σ : Type} (fuel : Nat) (s e : Int) (c : Int)
    (func : Int → σ → σ) (args : σ) : Option σ :=
  ForLoop fuel (ForLoopGreaterThanParams s e c) func args

/-- `ForLoopGreaterThanEqualTo` delegating to `ForLoop`. -/
def ForLoopGreaterThanEqualTo {σ : Type} (fuel : Nat) (s e : Int) (c : Int)
    (func : Int → σ → σ) (args : σ) : Option σ :=
  ForLoop fuel (ForLoopGreaterThanEqualToParams s e c) func args

/-- `ForLoopEqualTo` delegating to `ForLoop`. -/
def ForLoopEqualTo {σ : Type} (fuel : Nat) (s e : Int) (c : Int)
    (func : Int → σ → σ) (args : σ) : Option σ :=
  ForLoop fuel (ForLoopEqualToParams s e c) func args

-- Basic lemmas about the embedding.

theorem ForLoopTrace_invalid (fuel : Nat) (lp : LoopParams)
    (h : lp.IsValid = false) : ForLoopTrace fuel lp = some [] := by
  cases fuel <;> simp [ForLoopTrace, h]

theorem ForLoop_invalid {σ : Type} (fuel : Nat) (lp : LoopParams)
    (f : Int → σ → σ) (s : σ) (h : lp.IsValid = false) :
    ForLoop fuel lp f s = some s := by
  cases fuel <;> simp [ForLoop, h]

theorem ForLoop_eq_trace {σ : Type} (fuel : Nat) (lp : LoopParams)
    (f : Int → σ → σ) (s : σ) :
    ForLoop fuel lp f s =
      Option.map (fun t => List.foldl (fun a i => f i a) s t)
        (ForLoopTrace fuel lp) := by
  induction fuel generalizing lp s with
  | zero => by_cases h : lp.IsValid <;> simp [ForLoop, ForLoopTrace, h]
  | succ n ih =>
    by_cases h : lp.IsValid
    · simp only [ForLoop, ForLoopTrace, h, if_true]
      rw [ih]
      cases ForLoopTrace n lp.GetNext <;> simp
    · simp [ForLoop, ForLoopTrace, h]

theorem ForLoopTrace_one_step (fuel : Nat) (lp : LoopParams)
    (h1 : lp.IsValid = true) (h2 : lp.GetNext.IsValid = false) :
    ForLoopTrace (fuel + 1) lp = some [lp.CurrIdx] := by
  simp [ForLoopTrace, h1, ForLoopTrace_invalid fuel _ h2]

theorem ForLoop_one_step {σ : Type} (fuel : Nat) (lp : LoopParams)
    (f : Int → σ → σ) (s : σ)
    (h1 : lp.IsValid = true) (h2 : lp.GetNext.IsValid = false) :
    ForLoop (fuel + 1) lp f s = some (f lp.CurrIdx s) := by
  simp [ForLoop, h1, ForLoop_invalid fuel _ f _ h2]

theorem NestedForLoop_eq_trace {σ : Type} (fuel : Nat) (p q : LoopParams)
    (f : Int → Int → σ → σ) (s : σ) :
    NestedForLoop_2 fuel p q f s =
      Option.map (fun t => List.foldl (fun a ij => f ij.1 ij.2 a) s t)
        (NestedForLoopTrace fuel p q) := by
  induction fuel generalizing p q s with
  | zero => by_cases hp : p.IsValid <;> simp [NestedForLoop_2, NestedForLoopTrace, hp]
  | succ n ih =>
    by_cases hp : p.IsValid
    · by_cases hq : q.IsValid
      · simp only [NestedForLoop_2, NestedForLoopTrace, hp, hq, if_true]
        rw [ForLoop_eq_trace]
        cases htr : ForLoopTrace n q with
        | none => simp
        | some ts =>
          simp only [Option.map_some, Option.some_bind, ih]
          cases NestedForLoopTrace n p.GetNext q.Reset with
          | none => simp
          | some rest => simp [List.foldl_append, List.foldl_map]
      · simp [NestedForLoop_2, NestedForLoopTrace, hp, hq]
    · simp [NestedForLoop_2, NestedForLoopTrace, hp]

-- Claim theorems.

/-- C1: for every iteration state and every callback, `ForLoop` invokes the
callback with the current index while the continuation predicate holds, then
continues on the advanced state; when the predicate is false it returns
without invoking the callback.  Consequently the callback is executed
exactly once per valid index, in visitation order (the result of `ForLoop`
is the left fold of the callback over the visitation trace, with no
reordering or skipping). -/
theorem c1_ForLoop_step_and_order {σ : Type} (fuel : Nat) (lp : LoopParams)
    (f : Int → σ → σ) (s : σ) :
    ForLoop (fuel + 1) lp f s =
      (if lp.IsValid then ForLoop fuel lp.GetNext f (f lp.CurrIdx s) else some s) ∧
    ForLoopTrace (fuel + 1) lp =
      (if lp.IsValid then
        Option.map (fun t => lp.CurrIdx :: t) (ForLoopTrace fuel lp.GetNext)
      else some []) ∧
    ForLoop fuel lp f s =
      Option.map (fun t => List.foldl (fun a i => f i a) s t)
        (ForLoopTrace fuel lp) :=
  ⟨rfl, rfl, ForLoop_eq_trace fuel lp f s⟩

/-- C9: for every iteration state whose current index already fails the
continuation predicate at entry, `ForLoop` never invokes the callback and
returns normally (the state is returned unchanged and the visitation trace
is empty), at every fuel. -/
theorem c9_zero_iterations_silent {σ : Type} (fuel : Nat) (lp : LoopParams)
    (f : Int → σ → σ) (s : σ) (h : lp.IsValid = false) :
    ForLoop fuel lp f s = some s ∧ ForLoopTrace fuel lp = some [] :=
  ⟨ForLoop_invalid fuel lp f s h, ForLoopTrace_invalid fuel lp h⟩

theorem c9_zero_iterations_silent_witness :
    (ForLoopLessThanParams 5 5 1).IsValid = false ∧
    (ForLoop 3 (ForLoopLessThanParams 5 5 1) (fun i n => n + i) (0 : Int) = some 0 ∧
      ForLoopTrace 3 (ForLoopLessThanParams 5 5 1) = some []) :=
  ⟨by decide, c9_zero_iterations_silent 3 (ForLoopLessThanParams 5 5 1)
    (fun i n => n + i) 0 (by decide)⟩

/-- C5: with start index `s` equal to the end index, the less-than and
greater-than variants invoke the callback zero times, while the equal-to
variant invokes the callback exactly once, with index `s` (the fuel offsets
`fuel + 2` cover every sufficient fuel). -/
theorem c5_equal_endpoints (s : Int) (fuel : Nat) :
    ForLoopTrace fuel (ForLoopLessThanParams s s 1) = some [] ∧
    ForLoopTrace fuel (ForLoopGreaterThanParams s s) = some [] ∧
    ForLoopTrace (fuel + 2) (ForLoopEqualToParams s s 1) = some [s] ∧
    (∀ (σ : Type) (f : Int → σ → σ) (st : σ),
      ForLoopEqualTo (fuel + 2) s s 1 f st = some (f s st)) := by
  have hlt : (ForLoopLessThanParams s s 1).IsValid = false := by
    simp [LoopParams.IsValid, ForLoopLessThanParams, less]
  have hgt : (ForLoopGreaterThanParams s s).IsValid = false := by
    simp [LoopParams.IsValid, ForLoopGreaterThanParams, greater]
  have heq : (ForLoopEqualToParams s s 1).IsValid = true := by
    simp [LoopParams.IsValid, ForLoopEqualToParams, equal_to]
  have hnext : ((ForLoopEqualToParams s s 1).GetNext).IsValid = false := by
    simp [LoopParams.IsValid, LoopParams.GetNext, ForLoopEqualToParams, equal_to, plus]
  refine ⟨ForLoopTrace_invalid fuel _ hlt, ForLoopTrace_invalid fuel _ hgt, ?_, ?_⟩
  · rw [show fuel + 2 = (fuel + 1) + 1 from rfl,
      ForLoopTrace_one_step (fuel + 1) _ heq hnext]
    rfl
  · intro σ f st
    show ForLoop ((fuel + 1) + 1) (ForLoopEqualToParams s s 1) f st = some (f s st)
    rw [ForLoop_one_step (fuel + 1) _ f st heq hnext]
    rfl

theorem GetNextN_fields (n : Nat) (lp : LoopParams) :
    (GetNextN n lp).EndIdx = lp.EndIdx ∧ (GetNextN n lp).ChangeVal = lp.ChangeVal ∧
    (GetNextN n lp).Comparator = lp.Comparator ∧ (GetNextN n lp).Modifier = lp.Modifier ∧
    (GetNextN n lp).StartIdx = lp.StartIdx := by
  induction n generalizing lp with
  | zero => exact ⟨rfl, rfl, rfl, rfl, rfl⟩
  | succ n ih => simpa [GetNextN, LoopParams.GetNext] using ih lp.GetNext

/-- C6: for every iteration state and every number `n` of advances,
resetting the state obtained by `n` applications of `GetNext` yields a
state whose current index is exactly the original start index, with the
end index, change value, comparator, modifier and start index all
unchanged. -/
theorem c6_reset_after_advances (lp : LoopParams) (n : Nat) :
    ((GetNextN n lp).Reset).CurrIdx = lp.StartIdx ∧
    (GetNextN n lp).Reset =
      { CurrIdx := lp.StartIdx, EndIdx := lp.EndIdx, ChangeVal := lp.ChangeVal,
        Comparator := lp.Comparator, Modifier := lp.Modifier,
        StartIdx := lp.StartIdx } := by
  obtain ⟨h1, h2, h3, h4, h5⟩ := GetNextN_fields n lp
  constructor
  · simp [LoopParams.Reset, h5]
  · ext : 1 <;> simp [LoopParams.Reset, h1, h2, h3, h4, h5]

/-- C7: the descending convenience entry points (greater-than and
greater-or-equal) default the change value to -1 while the ascending ones
default it to +1, and descending enumeration from 10 to 1 with the default
step using the greater-than predicate visits exactly 10, 9, ..., 2 — nine
invocations. -/
theorem c7_descending_defaults :
    (∀ s e : Int, (ForLoopGreaterThanParams s e).ChangeVal = -1) ∧
    (∀ s e : Int, (ForLoopGreaterThanEqualToParams s e).ChangeVal = -1) ∧
    (∀ s e : Int, (ForLoopLessThanParams s e).ChangeVal = 1) ∧
    (∀ s e : Int, (ForLoopLessThanEqualToParams s e).ChangeVal = 1) ∧
    (∀ s e : Int, (ForLoopEqualToParams s e).ChangeVal = 1) ∧
    ForLoopTrace 15 (ForLoopGreaterThanParams 10 1) =
      some [10, 9, 8, 7, 6, 5, 4, 3, 2] ∧
    Option.map List.length (ForLoopTrace 15 (ForLoopGreaterThanParams 10 1)) =
      some 9 :=
  ⟨fun _ _ => rfl, fun _ _ => rfl, fun _ _ => rfl, fun _ _ => rfl, fun _ _ => rfl,
    by decide, by decide⟩

/-- C8: a non-additive advance rule supplied in the state is honored:
enumeration over `LoopParams<1, 64, 2, less_equal<int>, multiplies<int>>`
(range [1,64] inclusive, doubling advance rule) invokes the callback
exactly for the indices 1, 2, 4, 8, 16, 32, 64, in that order. -/
theorem c8_doubling_advance_rule :
    ForLoopTrace 10 ⟨1, 64, 2, less_equal, multiplies, 1⟩ =
      some [1, 2, 4, 8, 16, 32, 64] ∧
    (∀ (σ : Type) (f : Int → σ → σ) (s : σ),
      ForLoop 10 ⟨1, 64, 2, less_equal, multiplies, 1⟩ f s =
        some (List.foldl (fun a i => f i a) s [1, 2, 4, 8, 16, 32, 64])) := by
  refine ⟨by decide, fun σ f s => ?_⟩
  rw [ForLoop_eq_trace]
  rw [show ForLoopTrace 10 ⟨1, 64, 2, less_equal, multiplies, 1⟩ =
    some [1, 2, 4, 8, 16, 32, 64] from by decide]
  rfl

/-- C2: `NestedForLoop_2` visits (inner, outer) index pairs in inner-fastest
order and invokes the callback with the inner index first and the outer
index second (its result is the left fold of the callback over the pair
trace); each recursive step runs a full inner pass and continues on the
advanced outer state with the inner state reset to its start index; and for
outer range [0,2) step 1 and inner range [0,3) step 1 the visited
(inner, outer) sequence is exactly (0,0),(1,0),(2,0),(0,1),(1,1),(2,1). -/
theorem c2_nested_inner_fastest :
    (∀ (σ : Type) (fuel : Nat) (p q : LoopParams) (f : Int → Int → σ → σ) (s : σ),
      NestedForLoop_2 fuel p q f s =
        Option.map (fun t => List.foldl (fun a ij => f ij.1 ij.2 a) s t)
          (NestedForLoopTrace fuel p q)) ∧
    (∀ (fuel : Nat) (p q : LoopParams), p.IsValid = true → q.IsValid = true →
      NestedForLoopTrace (fuel + 1) p q =
        Option.bind (ForLoopTrace fuel q) (fun ts =>
          Option.map (fun rest => List.map (fun i => (i, p.CurrIdx)) ts ++ rest)
            (NestedForLoopTrace fuel p.GetNext q.Reset))) ∧
    NestedForLoopTrace 10 (ForLoopLessThanParams 0 2 1) (ForLoopLessThanParams 0 3 1) =
      some [(0, 0), (1, 0), (2, 0), (0, 1), (1, 1), (2, 1)] := by
  refine ⟨fun σ fuel p q f s => NestedForLoop_eq_trace fuel p q f s,
    fun fuel p q hp hq => ?_, by decide⟩
  simp [NestedForLoopTrace, hp, hq]

theorem c2_nested_inner_fastest_witness :
    NestedForLoopTrace 6 (ForLoopLessThanParams 0 2 1) (ForLoopLessThanParams 0 3 1) =
      Option.bind (ForLoopTrace 5 (ForLoopLessThanParams 0 3 1)) (fun ts =>
        Option.map
          (fun rest =>
            List.map (fun i => (i, (ForLoopLessThanParams 0 2 1).CurrIdx)) ts ++ rest)
          (NestedForLoopTrace 5 (ForLoopLessThanParams 0 2 1).GetNext
            (ForLoopLessThanParams 0 3 1).Reset)) :=
  c2_nested_inner_fastest.2.1 5 (ForLoopLessThanParams 0 2 1)
    (ForLoopLessThanParams 0 3 1) (by decide) (by decide)

/-- C4: the claim says a zero-length inner range in nested enumeration is
not an error (zero callback invocations, normal return), but in the source
the recursive `NestedForLoop_2` overload requires
`LP_out::IsValid() && LP_in::IsValid()` while the base overload requires
`!LP_out::IsValid()`; with a valid outer state (`LoopParams<0, 2>`) and an
inner state that fails its predicate at its start index
(`LoopParams<0, 0>`), no overload is viable and the call is ill-formed.
The embedding returns `none` at every fuel instead of a normal return. -/
theorem c4_nested_zero_length_inner_ill_formed :
    ∀ (fuel : Nat) (σ : Type) (f : Int → Int → σ → σ) (s : σ),
      NestedForLoop_2 fuel (ForLoopLessThanParams 0 2 1)
        (ForLoopLessThanParams 0 0 1) f s = none := by
  have hp : (ForLoopLessThanParams 0 2 1).IsValid = true := by decide
  have hq : (ForLoopLessThanParams 0 0 1).IsValid = false := by decide
  intro fuel σ f s
  cases fuel with
  | zero => simp [NestedForLoop_2, hp]
  | succ n => simp [NestedForLoop_2, hp, hq]

-- Characterization of additive ascending enumeration, used for the
-- less-than and less-or-equal entry points.

theorem asc_trace_stop (lp : LoopParams) (hinv : lp.IsValid = false) (fuel : Nat) :
    ∃ n : Nat,
      ForLoopTrace fuel lp =
        some (List.map (fun j : Nat => lp.CurrIdx + (j : Int) * lp.ChangeVal)
          (List.range n)) ∧
      (∀ j : Nat, j < n →
        lp.Comparator (lp.CurrIdx + (j : Int) * lp.ChangeVal) lp.EndIdx = true) ∧
      lp.Comparator (lp.CurrIdx + (n : Int) * lp.ChangeVal) lp.EndIdx = false := by
  refine ⟨0, ?_, ?_, ?_⟩
  · rw [ForLoopTrace_invalid fuel lp hinv]
    simp
  · intro j hj
    exact absurd hj (Nat.not_lt_zero j)
  · have h0 : lp.CurrIdx + ((0 : Nat) : Int) * lp.ChangeVal = lp.CurrIdx := by
      push_cast
      ring
    rw [h0]
    exact hinv

theorem asc_trace_spec (k : Nat) :
    ∀ (lp : LoopParams) (B : Int), lp.Modifier = plus → 0 < lp.ChangeVal →
      (∀ a : Int, lp.Comparator a lp.EndIdx = true → a < B) →
      (B - lp.CurrIdx).toNat ≤ k →
      ∀ fuel : Nat, k < fuel →
        ∃ n : Nat,
          ForLoopTrace fuel lp =
            some (List.map (fun j : Nat => lp.CurrIdx + (j : Int) * lp.ChangeVal)
              (List.range n)) ∧
          (∀ j : Nat, j < n →
            lp.Comparator (lp.CurrIdx + (j : Int) * lp.ChangeVal) lp.EndIdx = true) ∧
          lp.Comparator (lp.CurrIdx + (n : Int) * lp.ChangeVal) lp.EndIdx = false := by
  induction k with
  | zero =>
    intro lp B hmod hc hcomp hk fuel hfuel
    have hinv : lp.IsValid = false := by
      cases hv : lp.IsValid
      · rfl
      · exfalso
        have hlt : lp.CurrIdx < B := hcomp lp.CurrIdx hv
        omega
    exact asc_trace_stop lp hinv fuel
  | succ k ih =>
    intro lp B hmod hc hcomp hk fuel hfuel
    cases hv : lp.IsValid
    · exact asc_trace_stop lp hv fuel
    · have hvc : lp.Comparator lp.CurrIdx lp.EndIdx = true := hv
      have hlt : lp.CurrIdx < B := hcomp lp.CurrIdx hvc
      cases fuel with
      | zero => omega
      | succ m =>
        have hm : k < m := by omega
        have hcur : lp.GetNext.CurrIdx = lp.CurrIdx + lp.ChangeVal := by
          simp [LoopParams.GetNext, hmod, plus]
        have hch : lp.GetNext.ChangeVal = lp.ChangeVal := rfl
        have hend : lp.GetNext.EndIdx = lp.EndIdx := rfl
        have hcompF : lp.GetNext.Comparator = lp.Comparator := rfl
        have hmod2 : lp.GetNext.Modifier = plus := hmod
        have hk2 : (B - lp.GetNext.CurrIdx).toNat ≤ k := by
          rw [hcur]
          omega
        obtain ⟨n, htr, hall, hstop⟩ := ih lp.GetNext B hmod2 hc hcomp hk2 m hm
        simp only [hcur, hch, hend, hcompF] at htr hall hstop
        refine ⟨n + 1, ?_, ?_, ?_⟩
        · simp only [ForLoopTrace, hv, if_true]
          rw [htr]
          refine congrArg some ?_
          simp only [Option.map_some]
          rw [List.range_succ_eq_map, List.map_cons, List.map_map]
          refine congrArg₂ List.cons (by push_cast; ring) (List.map_congr_left fun j hj => ?_)
          simp only [Function.comp_apply]
          push_cast
          ring
        · intro j hj
          match j with
          | 0 => simpa using hvc
          | j + 1 =>
            have hj2 := hall j (by omega)
            have heq2 : lp.CurrIdx + ((j + 1 : Nat) : Int) * lp.ChangeVal =
                lp.CurrIdx + lp.ChangeVal + (j : Int) * lp.ChangeVal := by
              push_cast
              ring
            rw [heq2]
            exact hj2
        · have heq2 : lp.CurrIdx + ((n + 1 : Nat) : Int) * lp.ChangeVal =
              lp.CurrIdx + lp.ChangeVal + (n : Int) * lp.ChangeVal := by
            push_cast
            ring
          rw [heq2]
          exact hstop

theorem stop_index_unique {P : Nat → Bool} {n1 n2 : Nat}
    (h1 : ∀ j, j < n1 → P j = true) (h2 : P n1 = false)
    (h3 : ∀ j, j < n2 → P j = true) (h4 : P n2 = false) : n1 = n2 := by
  rcases Nat.lt_trichotomy n1 n2 with h | h | h
  · rw [h3 n1 h] at h2
    exact absurd h2 (by simp)
  · exact h
  · rw [h1 n2 h] at h4
    exact absurd h4 (by simp)

theorem asc_stable_trace (lp : LoopParams) (B : Int) (hmod : lp.Modifier = plus)
    (hc : 0 < lp.ChangeVal)
    (hcomp : ∀ a : Int, lp.Comparator a lp.EndIdx = true → a < B) :
    ∃ n : Nat,
      (∀ fuel : Nat, (B - lp.CurrIdx).toNat < fuel →
        ForLoopTrace fuel lp =
          some (List.map (fun j : Nat => lp.CurrIdx + (j : Int) * lp.ChangeVal)
            (List.range n))) ∧
      (∀ j : Nat, j < n →
        lp.Comparator (lp.CurrIdx + (j : Int) * lp.ChangeVal) lp.EndIdx = true) ∧
      lp.Comparator (lp.CurrIdx + (n : Int) * lp.ChangeVal) lp.EndIdx = false := by
  obtain ⟨n, _, hall, hstop⟩ := asc_trace_spec (B - lp.CurrIdx).toNat lp B hmod hc
    hcomp le_rfl ((B - lp.CurrIdx).toNat + 1) (Nat.lt_succ_self _)
  refine ⟨n, ?_, hall, hstop⟩
  intro fuel hf
  obtain ⟨n2, htr2, hall2, hstop2⟩ := asc_trace_spec (B - lp.CurrIdx).toNat lp B hmod hc
    hcomp le_rfl fuel hf
  have hn : n = n2 := stop_index_unique
    (P := fun j : Nat => lp.Comparator (lp.CurrIdx + (j : Int) * lp.ChangeVal) lp.EndIdx)
    hall hstop hall2 hstop2
  rw [htr2, hn]

theorem asc_map_pairwise (s c : Int) (hc : 0 < c) (n : Nat) :
    List.Pairwise (fun a b : Int => a < b)
      (List.map (fun j : Nat => s + (j : Int) * c) (List.range n)) := by
  refine List.Pairwise.map _ ?_ (List.pairwise_lt_range n)
  intro a b hab
  have hab2 : (a : Int) < (b : Int) := by exact_mod_cast hab
  nlinarith

/-- C3: for all integers s ≤ e and every positive step, ascending
enumeration with the less-than predicate (`ForLoopLessThan`) invokes the
callback exactly on the sequence s, s+step, s+2·step, … while the index is
< e (resp. ≤ e for `ForLoopLessThanEqualTo`), in strictly increasing order,
every visited value below (resp. at most) e and every such value visited;
concretely, from 1 to 10 with step 1 and less-than the visited indices are
exactly 1, 2, ..., 9 — nine invocations, not ten.  The final conjunct ties
the `ForLoopLessThan` entry point's callback invocations to the trace. -/
theorem c3_ascending_enumeration :
    (∀ s e c : Int, s ≤ e → 0 < c →
      ∃ t : List Int,
        (∀ fuel : Nat, (e - s).toNat < fuel →
          ForLoopTrace fuel (ForLoopLessThanParams s e c) = some t) ∧
        t = List.map (fun j : Nat => s + (j : Int) * c) (List.range t.length) ∧
        List.Pairwise (fun a b : Int => a < b) t ∧
        (∀ x ∈ t, x < e) ∧
        (∀ j : Nat, s + (j : Int) * c < e → s + (j : Int) * c ∈ t)) ∧
    (∀ s e c : Int, s ≤ e → 0 < c →
      ∃ t : List Int,
        (∀ fuel : Nat, (e + 1 - s).toNat < fuel →
          ForLoopTrace fuel (ForLoopLessThanEqualToParams s e c) = some t) ∧
        t = List.map (fun j : Nat => s + (j : Int) * c) (List.range t.length) ∧
        List.Pairwise (fun a b : Int => a < b) t ∧
        (∀ x ∈ t, x ≤ e) ∧
        (∀ j : Nat, s + (j : Int) * c ≤ e → s + (j : Int) * c ∈ t)) ∧
    ForLoopTrace 15 (ForLoopLessThanParams 1 10 1) =
      some [1, 2, 3, 4, 5, 6, 7, 8, 9] ∧
    (∀ (σ : Type) (fuel : Nat) (s e c : Int) (f : Int → σ → σ) (st : σ),
      ForLoopLessThan fuel s e c f st =
        Option.map (fun t => List.foldl (fun a i => f i a) st t)
          (ForLoopTrace fuel (ForLoopLessThanParams s e c))) := by
  refine ⟨?_, ?_, by decide,
    fun σ fuel s e c f st => ForLoop_eq_trace fuel (ForLoopLessThanParams s e c) f st⟩
  · intro s e c hse hc
    have hcompB : ∀ a : Int,
        (ForLoopLessThanParams s e c).Comparator a (ForLoopLessThanParams s e c).EndIdx = true →
          a < e := by
      intro a ha
      simpa [ForLoopLessThanParams, less] using ha
    obtain ⟨n, htr, hall, hstop⟩ :=
      asc_stable_trace (ForLoopLessThanParams s e c) e rfl hc hcompB
    refine ⟨List.map (fun j : Nat => s + (j : Int) * c) (List.range n),
      fun fuel hf => htr fuel hf, ?_, asc_map_pairwise s c hc n, ?_, ?_⟩
    · rw [List.length_map, List.length_range]
    · intro x hx
      obtain ⟨j, hj, rfl⟩ := List.mem_map.mp hx
      have hj2 := hall j (List.mem_range.mp hj)
      simpa [ForLoopLessThanParams, less] using hj2
    · intro j hj
      have hne : ¬ (s + (n : Int) * c < e) := by
        simpa [ForLoopLessThanParams, less] using hstop
      have h1 : (j : Int) * c < (n : Int) * c := by linarith
      have hjn : j < n := by
        exact_mod_cast lt_of_mul_lt_mul_right h1 (le_of_lt hc)
      exact List.mem_map.mpr ⟨j, List.mem_range.mpr hjn, rfl⟩
  · intro s e c hse hc
    have hcompB : ∀ a : Int,
        (ForLoopLessThanEqualToParams s e c).Comparator a
            (ForLoopLessThanEqualToParams s e c).EndIdx = true →
          a < e + 1 := by
      intro a ha
      have ha2 : a ≤ e := by simpa [ForLoopLessThanEqualToParams, less_equal] using ha
      omega
    obtain ⟨n, htr, hall, hstop⟩ :=
      asc_stable_trace (ForLoopLessThanEqualToParams s e c) (e + 1) rfl hc hcompB
    refine ⟨List.map (fun j : Nat => s + (j : Int) * c) (List.range n),
      fun fuel hf => htr fuel hf, ?_, asc_map_pairwise s c hc n, ?_, ?_⟩
    · rw [List.length_map, List.length_range]
    · intro x hx
      obtain ⟨j, hj, rfl⟩ := List.mem_map.mp hx
      have hj2 := hall j (List.mem_range.mp hj)
      simpa [ForLoopLessThanEqualToParams, less_equal] using hj2
    · intro j hj
      have hne : ¬ (s + (n : Int) * c ≤ e) := by
        simpa [ForLoopLessThanEqualToParams, less_equal] using hstop
      have h1 : (j : Int) * c < (n : Int) * c := by linarith
      have hjn : j < n := by
        exact_mod_cast lt_of_mul_lt_mul_right h1 (le_of_lt hc)
      exact List.mem_map.mpr ⟨j, List.mem_range.mpr hjn, rfl⟩

theorem c3_ascending_enumeration_witness :
    ∃ t : List Int,
      (∀ fuel : Nat, ((3 : Int) - 0).toNat < fuel →
        ForLoopTrace fuel (ForLoopLessThanParams 0 3 1) = some t) ∧
      t = List.map (fun j : Nat => 0 + (j : Int) * 1) (List.range t.length) ∧
      List.Pairwise (fun a b : Int => a < b) t ∧
      (∀ x ∈ t, x < 3) ∧
      (∀ j : Nat, 0 + (j : Int) * 1 < 3 → 0 + (j : Int) * 1 ∈ t) :=
  c3_ascending_enumeration.1 0 3 1 (by decide) (by decide)

/-- C10: for every start index s, end index e and strictly positive change
value c, enumeration via `ForLoopLessThan` terminates: the visitation trace
stabilizes to a fixed finite list once the fuel exceeds `(e - s).toNat`,
and its length is at most `max 0 ⌈(e - s) / c⌉` (written with integer
division as `max 0 ((e - s + c - 1) / c)`), even though `ForLoop` itself
has no built-in iteration cap. -/
theorem c10_lessThan_termination_bound (s e c : Int) (hc : 0 < c) :
    ∃ t : List Int,
      (∀ fuel : Nat, (e - s).toNat < fuel →
        ForLoopTrace fuel (ForLoopLessThanParams s e c) = some t) ∧
      ((t.length : Int) ≤ max 0 ((e - s + c - 1) / c)) := by
  have hcompB : ∀ a : Int,
      (ForLoopLessThanParams s e c).Comparator a (ForLoopLessThanParams s e c).EndIdx = true →
        a < e := by
    intro a ha
    simpa [ForLoopLessThanParams, less] using ha
  obtain ⟨n, htr, hall, hstop⟩ :=
    asc_stable_trace (ForLoopLessThanParams s e c) e rfl hc hcompB
  refine ⟨List.map (fun j : Nat => s + (j : Int) * c) (List.range n),
    fun fuel hf => htr fuel hf, ?_⟩
  rw [List.length_map, List.length_range]
  cases n with
  | zero => simp
  | succ m =>
    have hm := hall m (Nat.lt_succ_self m)
    have hm2 : s + (m : Int) * c < e := by
      simpa [ForLoopLessThanParams, less] using hm
    have h1 : (m : Int) ≤ (e - s - 1) / c := by
      rw [Int.le_ediv_iff_mul_le hc]
      linarith
    have h3 : (e - s - 1) / c + 1 = (e - s + c - 1) / c := by
      rw [show e - s + c - 1 = e - s - 1 + 1 * c by ring,
        Int.add_mul_ediv_right _ _ (by omega : c ≠ 0)]
    have h2 : ((m + 1 : Nat) : Int) ≤ (e - s + c - 1) / c := by
      push_cast
      linarith
    exact le_trans h2 (le_max_right 0 _)

theorem c10_lessThan_termination_bound_witness :
    ∃ t : List Int,
      (∀ fuel : Nat, ((10 : Int) - 1).toNat < fuel →
        ForLoopTrace fuel (ForLoopLessThanParams 1 10 1) = some t) ∧
      ((t.length : Int) ≤ max 0 ((10 - 1 + 1 - 1) / 1)) :=
  c10_lessThan_termination_bound 1 10 1 (by decide)
